import Mathlib

/-!
Shallow embedding of `src/pages/api/stats.ts`, the Git Wrapped stats endpoint.

Modelling conventions, chosen to match the JavaScript source:

* JavaScript numbers are modelled as `Nat` (every quantity in the handler is a
  non-negative integer), except the single floating-point division feeding
  `Math.round`, which is modelled with exact rational arithmetic; `Math.round`
  is `floor (x + 1/2)`, its round-half-toward-positive-infinity behaviour.
* Date strings are modelled as structured year/month/day values.  On the
  well-formed `YYYY-MM-DD` strings supplied by the GitHub API, `new Date`
  comparison coincides with lexicographic comparison of the components, and
  `getMonth() + 1` on the edge runtime (whose local time is UTC) returns the
  month component.
* Plain JavaScript objects used as string-keyed dictionaries are modelled as
  association lists in insertion order, together with the `Object.entries`
  enumeration order mandated by ECMAScript: keys that are canonical array
  indices first, in ascending numeric order, then the remaining string keys in
  insertion order.
* `Array.prototype.sort` with comparator `(a, b) => b - a` is modelled as a
  stable sort descending on the compared component, as required by the
  ECMAScript specification.
* The handler `GET` is modelled as a function of the parsed `username` query
  parameter and of the outbound GraphQL fetch, the latter passed in as a
  function returning either a thrown error message, a `null` user, or a user
  record.  Thrown exceptions inside the `try` block are modelled by
  `Except.error` carrying the message of the exception.
-/

/-- A calendar date, standing for the `YYYY-MM-DD` date strings of the API. -/
structure YMD where
  year : Nat
  month : Nat
  day : Nat
deriving DecidableEq

/-- Comparison of parsed dates (`new Date(a) <= new Date(b)`): lexicographic on
well-formed calendar dates. -/
def YMD.leb (a b : YMD) : Bool :=
  if a.year ≠ b.year then decide (a.year < b.year)
  else if a.month ≠ b.month then decide (a.month < b.month)
  else decide (a.day ≤ b.day)

/-- interface ContributionDay. -/
structure ContributionDay where
  contributionCount : Nat
  date : YMD
  weekday : Nat
deriving DecidableEq

/-- One week of the contribution calendar. -/
structure Week where
  contributionDays : List ContributionDay
deriving DecidableEq

/-- contributionCalendar of the GraphQL response. -/
structure ContributionCalendar where
  totalContributions : Nat
  weeks : List Week
deriving DecidableEq

/-- contributionsCollection of the GraphQL response. -/
structure ContributionsCollection where
  contributionCalendar : ContributionCalendar
deriving DecidableEq

/-- One repository node of the GraphQL response; `primaryLanguage` is `none`
when the repository has no primary language (`null` upstream). -/
structure RepoNode where
  stargazerCount : Nat
  primaryLanguage : Option String
deriving DecidableEq

/-- repositories of the GraphQL response. -/
structure Repositories where
  nodes : List RepoNode
deriving DecidableEq

/-- The (non-null) user record of the GraphQL response. -/
structure UserData where
  contributionsCollection : ContributionsCollection
  repositories : Repositories
deriving DecidableEq

/-- mostActiveDay / mostActiveMonth output records.  `name` is `none` exactly
when the JavaScript array lookup for the name would yield `undefined`. -/
structure ActivePeriod where
  name : Option String
  commits : Int
deriving DecidableEq

/-- interface GitHubStats (the 200-response body). -/
structure GitHubStats where
  longestStreak : Nat
  totalCommits : Nat
  commitRank : String
  calendarData : List ContributionDay
  mostActiveDay : ActivePeriod
  mostActiveMonth : ActivePeriod
  starsEarned : Nat
  topLanguages : List String
deriving DecidableEq

/-- An HTTP response of the handler: either a complete stats record (status
200) or an error record with a status code and message. -/
inductive Response where
  | ok : GitHubStats → Response
  | err : Nat → String → Response
deriving DecidableEq

/-! ## JavaScript dictionary objects

A `Record<string, number>` is an association list in insertion order with
unique keys; `jsSet` updates an existing key in place and appends a fresh key,
exactly as property assignment does. -/

/-- A JavaScript object used as a string-keyed dictionary of numbers, held in
property insertion order. -/
abbrev JSRecord := List (String × Nat)

/-- Property read `o[k]`: `some` the stored value, `none` for `undefined`. -/
def jsGet (o : JSRecord) (k : String) : Option Nat :=
  (o.find? (fun p => p.1 == k)).map (fun p => p.2)

/-- Property write `o[k] = v`: update in place if present, else append. -/
def jsSet : JSRecord → String → Nat → JSRecord
  | [], k, v => [(k, v)]
  | p :: ps, k, v => if p.1 == k then (k, v) :: ps else p :: jsSet ps k v

/-- Is the character an ASCII decimal digit? -/
def isDigitChar (c : Char) : Bool := 48 ≤ c.toNat && c.toNat ≤ 57

/-- Numeric value of a string of decimal digits. -/
def digitsToNat (l : List Char) : Nat := l.foldl (fun a c => a * 10 + (c.toNat - 48)) 0

/-- Is the string a canonical array-index property key in the ECMAScript
sense: a canonical decimal numeral (no leading zero except `"0"` itself)
denoting an integer below 2^32 - 1?  Such keys are enumerated before all
other string keys, in ascending numeric order. -/
def isCanonicalIndex (s : String) : Bool :=
  (s.toList ≠ []) && s.toList.all isDigitChar &&
    (s == "0" || s.toList.head? != some '0') && digitsToNat s.toList < 4294967295

/-- Numeric value of a (digit-string) property key. -/
def keyNum (s : String) : Nat := digitsToNat s.toList

/-- Insert an entry into a list of entries sorted ascending by key value. -/
def insertAsc (x : String × Nat) : List (String × Nat) → List (String × Nat)
  | [] => [x]
  | y :: ys => if keyNum x.1 ≤ keyNum y.1 then x :: y :: ys else y :: insertAsc x ys

/-- Sort entries ascending by the numeric value of their keys. -/
def sortByKeyNum (l : List (String × Nat)) : List (String × Nat) := l.foldr insertAsc []

/-- `Object.entries o`: array-index keys first in ascending numeric order,
then the remaining string keys in insertion order. -/
def jsEntries (o : JSRecord) : List (String × Nat) :=
  sortByKeyNum (o.filter (fun p => isCanonicalIndex p.1)) ++
    o.filter (fun p => !isCanonicalIndex p.1)

/-- One step of the stable insertion sort modelling
`entries.sort(([, a], [, b]) => b - a)`: the new element (earlier in the
original array) is placed before the first element whose value does not
exceed its own, so equal values keep their original relative order. -/
def insDesc (x : String × Nat) : List (String × Nat) → List (String × Nat)
  | [] => [x]
  | y :: ys => if y.2 ≤ x.2 then x :: y :: ys else y :: insDesc x ys

/-- Stable sort of entries, descending on the numeric value. -/
def sortDescByVal (l : List (String × Nat)) : List (String × Nat) := l.foldr insDesc []

/-! ## The statistics computation of the handler -/

/-- function getCommitRank (lines 42-50 of stats.ts). -/
def getCommitRank (totalCommits : Nat) : String :=
  if 5000 ≤ totalCommits then "Top 0.5%-1%"
  else if 2000 ≤ totalCommits then "Top 1%-3%"
  else if 1000 ≤ totalCommits then "Top 5%-10%"
  else if 500 ≤ totalCommits then "Top 10%-15%"
  else if 200 ≤ totalCommits then "Top 25%-30%"
  else if 50 ≤ totalCommits then "Median 50%"
  else "Bottom 30%"

/-- const WEEKDAY_NAMES. -/
def WEEKDAY_NAMES : List String :=
  ["Sunday", "Monday", "Tuesday", "Wednesday", "Thursday", "Friday", "Saturday"]

/-- const MONTH_NAMES. -/
def MONTH_NAMES : List String :=
  ["January", "February", "March", "April", "May", "June", "July", "August",
    "September", "October", "November", "December"]

/-- The fixed year boundary `new Date("2024-01-01")` of the filter. -/
def yearBoundary : YMD := ⟨2024, 1, 1⟩

/-- The contribution days used by every aggregation:
`weeks.flatMap(week => week.contributionDays).filter(day => new Date(day.date) >= new Date("2024-01-01"))`. -/
def contributionDaysOf (ud : UserData) : List ContributionDay :=
  ((ud.contributionsCollection.contributionCalendar.weeks.map
      (fun w => w.contributionDays)).flatten).filter
    (fun d => YMD.leb yearBoundary d.date)

/-- `month.toString().padStart(2, "0")` for the 1-based month number. -/
def monthKey (m : Nat) : String := if m < 10 then "0" ++ toString m else toString m

/-- One iteration of the monthlyCommits accumulation (lines 141-146). -/
def monthStep (acc : JSRecord) (d : ContributionDay) : JSRecord :=
  jsSet acc (monthKey d.date.month) ((jsGet acc (monthKey d.date.month)).getD 0 + d.contributionCount)

/-- const monthlyCommits: per-month contribution totals, keyed by the
zero-padded month number. -/
def monthlyCommits (days : List ContributionDay) : JSRecord := days.foldl monthStep []

/-- One iteration of the dailyCommits accumulation (lines 150-153); the numeric
`day.weekday` is coerced to its decimal string as a property key. -/
def dayStep (acc : JSRecord) (d : ContributionDay) : JSRecord :=
  jsSet acc (toString d.weekday) ((jsGet acc (toString d.weekday)).getD 0 + d.contributionCount)

/-- const dailyCommits: per-weekday contribution totals. -/
def dailyCommits (days : List ContributionDay) : JSRecord := days.foldl dayStep []

/-- `const [mostActiveMonth] = Object.entries(monthlyCommits).sort(([, a], [, b]) => b - a)`:
`none` models the `undefined` obtained by destructuring an empty array. -/
def mostActiveMonthEntry (days : List ContributionDay) : Option (String × Nat) :=
  (sortDescByVal (jsEntries (monthlyCommits days))).head?

/-- `const [mostActiveDay] = Object.entries(dailyCommits).sort(([, a], [, b]) => b - a)`. -/
def mostActiveDayEntry (days : List ContributionDay) : Option (String × Nat) :=
  (sortDescByVal (jsEntries (dailyCommits days))).head?

/-- `reduce((acc, repo) => acc + repo.stargazerCount, 0)` (lines 165-168). -/
def totalStars (repos : List RepoNode) : Nat :=
  repos.foldl (fun acc r => acc + r.stargazerCount) 0

/-- One iteration of the languages accumulation (lines 171-180); the truthiness
test `repo.primaryLanguage?.name` skips repositories whose primary language is
`null` and also a (hypothetical) empty-string language name. -/
def langStep (acc : JSRecord) (r : RepoNode) : JSRecord :=
  match r.primaryLanguage with
  | some n => if n = "" then acc else jsSet acc n ((jsGet acc n).getD 0 + 1)
  | none => acc

/-- const languages: repository counts per primary-language name. -/
def languagesRecord (repos : List RepoNode) : JSRecord := repos.foldl langStep []

/-- const topLanguages (lines 182-185). -/
def topLanguages (repos : List RepoNode) : List String :=
  ((sortDescByVal (jsEntries (languagesRecord repos))).take 3).map Prod.fst

/-- One iteration of the streak loop (lines 188-197), over the pair
(currentStreak, maxStreak). -/
def streakStep (p : Nat × Nat) (d : ContributionDay) : Nat × Nat :=
  if 0 < d.contributionCount then (p.1 + 1, max p.2 (p.1 + 1)) else (0, p.2)

/-- The maxStreak value computed by the streak loop. -/
def longestStreak (days : List ContributionDay) : Nat :=
  (days.foldl streakStep (0, 0)).2

/-- `parseInt` on the digit-string keys produced by the aggregations. -/
def parseIntKey (s : String) : Nat := keyNum s

/-- `WEEKDAY_NAMES[parseInt(key)]`: `none` is `undefined` for an out-of-range
index. -/
def weekdayNameOf (k : String) : Option String := WEEKDAY_NAMES.get? (parseIntKey k)

/-- `MONTH_NAMES[parseInt(key) - 1]`: `none` is `undefined`, in particular for
the (unreachable) index -1. -/
def monthNameOf (k : String) : Option String :=
  if parseIntKey k = 0 then none else MONTH_NAMES.get? (parseIntKey k - 1)

/-- `Math.round`, on exact rationals: floor (q + 1/2). -/
def jsRound (q : ℚ) : Int := (q + 1/2).floor

/-- Thrown message modelled for reading a property of `undefined` (the empty
destructuring of line 156/160 followed by the index access of line 209/213). -/
def undefinedReadMsg : String := "Cannot read properties of undefined"

/-- Thrown message modelled for reading a property of a `null` user record
(line 135). -/
def nullUserMsg : String := "Cannot read properties of null"

/-- The fallback of `error.message || "Failed to fetch GitHub statistics"`. -/
def fallbackMsg : String := "Failed to fetch GitHub statistics"

/-- The body of the try block after a successful fetch of a non-null user:
builds the GitHubStats record (lines 133-218), or throws (Except.error) where
the JavaScript would.  The day entry is forced first because the object
literal evaluates `mostActiveDay.name` (line 209) before `mostActiveMonth`
(line 213). -/
def buildStats (ud : UserData) : Except String GitHubStats :=
  let days := contributionDaysOf ud
  let totalCommits := ud.contributionsCollection.contributionCalendar.totalContributions
  match mostActiveDayEntry days with
  | none => Except.error undefinedReadMsg
  | some dayE =>
    match mostActiveMonthEntry days with
    | none => Except.error undefinedReadMsg
    | some monthE =>
      Except.ok
        { longestStreak := longestStreak days
          totalCommits := totalCommits
          commitRank := getCommitRank totalCommits
          calendarData := days
          mostActiveDay :=
            { name := weekdayNameOf dayE.1
              commits := jsRound ((dayE.2 : ℚ) / ((days.length : ℚ) / 7)) }
          mostActiveMonth :=
            { name := monthNameOf monthE.1
              commits := (monthE.2 : Int) }
          starsEarned := totalStars ud.repositories.nodes
          topLanguages := topLanguages ud.repositories.nodes }

/-- The fetch outcome: `Except.error m` models a thrown upstream error with
message `m`; `Except.ok none` models a response whose `user` field is `null`;
`Except.ok (some ud)` a well-formed user record. -/
abbrev Fetch := String → Except String (Option UserData)

/-- The exported handler GET (lines 89-228).  `username` is
`searchParams.get("username")` (`none` for a missing parameter); `!username`
is true for both `null` and the empty string.  Every throw inside the try
block is converted by the catch into a 500 response carrying
`error.message || "Failed to fetch GitHub statistics"`. -/
def GET (username : Option String) (fetch : Fetch) : Response :=
  match username with
  | none => Response.err 400 "Username parameter is required"
  | some u =>
    if u = "" then Response.err 400 "Username parameter is required"
    else
      match fetch u with
      | Except.error m => Response.err 500 (if m = "" then fallbackMsg else m)
      | Except.ok none => Response.err 500 (if nullUserMsg = "" then fallbackMsg else nullUserMsg)
      | Except.ok (some ud) =>
        match buildStats ud with
        | Except.error m => Response.err 500 (if m = "" then fallbackMsg else m)
        | Except.ok s => Response.ok s

/-! ## Specification-side definitions

These are written from the wording of the specification, to be compared with
the definitions above taken from the source. -/

/-- Length of the initial run of days with a positive contribution count. -/
def posRun : List ContributionDay → Nat
  | [] => 0
  | d :: ds => if 0 < d.contributionCount then posRun ds + 1 else 0

/-- The maximum run length of consecutive days with a positive contribution
count, in list order: every such run is the initial positive run of some
suffix, so we take the maximum of `posRun` over all suffixes. -/
def maxRunSpec : List ContributionDay → Nat
  | [] => 0
  | d :: ds => max (posRun (d :: ds)) (maxRunSpec ds)

/-- The commit-rank threshold table of the specification, in descending order
of threshold. -/
def rankTable : List (Nat × String) :=
  [(5000, "Top 0.5%-1%"), (2000, "Top 1%-3%"), (1000, "Top 5%-10%"),
    (500, "Top 10%-15%"), (200, "Top 25%-30%"), (50, "Median 50%")]

/-- Applying the table: the first row whose threshold is reached wins, with
the fallback label otherwise. -/
def applyRankTable (n : Nat) : String :=
  ((rankTable.find? (fun p => decide (p.1 ≤ n))).map (fun p => p.2)).getD "Bottom 30%"

/-- The largest value occurring among the entries of a dictionary. -/
def maxVal (l : List (String × Nat)) : Nat := l.foldr (fun p m => max p.2 m) 0

/-- The first entry, in the order of the given entry list, achieving the
maximum value: the claimed deterministic tie-breaking rule. -/
def firstMax (l : List (String × Nat)) : Option (String × Nat) :=
  l.find? (fun p => p.2 == maxVal l)

/-- The top-languages computation as the claim states it: ties broken by the
first-encountered key in insertion order of the aggregation (no
`Object.entries` reordering of array-index keys). -/
def topLanguagesInsertionOrder (repos : List RepoNode) : List String :=
  ((sortDescByVal (languagesRecord repos)).take 3).map Prod.fst

/-- Number of repositories whose primary language is the given name. -/
def langCount (repos : List RepoNode) (n : String) : Nat :=
  (repos.filter (fun r => r.primaryLanguage == some n)).length

/-- The value stored for a key, with 0 for an absent key. -/
def recVal (o : JSRecord) (n : String) : Nat := (jsGet o n).getD 0

/-- The `Except.ok` part of a computation, dropping any error. -/
def okStats (e : Except String GitHubStats) : Option GitHubStats :=
  match e with
  | Except.ok s => some s
  | Except.error _ => none

/-! ## Lemmas about the streak loop -/

theorem posRun_le_length : ∀ l : List ContributionDay, posRun l ≤ l.length := by
  intro l
  induction l with
  | nil => simp [posRun]
  | cons d ds ih =>
    simp only [posRun, List.length_cons]
    split <;> omega

theorem posRun_le_maxRunSpec : ∀ l : List ContributionDay, posRun l ≤ maxRunSpec l := by
  intro l
  cases l with
  | nil => simp [posRun, maxRunSpec]
  | cons d ds => simp [maxRunSpec]

theorem maxRunSpec_le_length : ∀ l : List ContributionDay, maxRunSpec l ≤ l.length := by
  intro l
  induction l with
  | nil => simp [maxRunSpec]
  | cons d ds ih =>
    have h := posRun_le_length (d :: ds)
    simp only [maxRunSpec, List.length_cons] at h ⊢
    omega

/-- The streak loop with the initial-run credit `c`: maximum over the runs of
the list, the initial run (if the list starts positive) extended by `c`. -/
def runAux (c : Nat) : List ContributionDay → Nat
  | [] => 0
  | d :: ds => if 0 < d.contributionCount then max (c + 1) (runAux (c + 1) ds) else runAux 0 ds

theorem foldl_streakStep (l : List ContributionDay) :
    ∀ c m, (l.foldl streakStep (c, m)).2 = max m (runAux c l) := by
  induction l with
  | nil => intro c m; simp [runAux]
  | cons d ds ih =>
    intro c m
    by_cases hd : 0 < d.contributionCount
    · simp only [List.foldl_cons, streakStep, if_pos hd, runAux, ih]
      omega
    · simp only [List.foldl_cons, streakStep, if_neg hd, runAux, ih]

/-- The initial-run credit only stretches the first run. -/
def bumpRun (c : Nat) (l : List ContributionDay) : Nat :=
  if posRun l = 0 then 0 else c + posRun l

theorem runAux_eq (l : List ContributionDay) :
    ∀ c, runAux c l = max (bumpRun c l) (maxRunSpec l) := by
  induction l with
  | nil => intro c; simp [runAux, bumpRun, posRun, maxRunSpec]
  | cons d ds ih =>
    intro c
    by_cases hd : 0 < d.contributionCount
    · simp only [runAux, if_pos hd, ih, bumpRun, maxRunSpec, posRun]
      have hp := posRun_le_maxRunSpec ds
      by_cases h0 : posRun ds = 0 <;> simp [h0, hd] <;> omega
    · simp only [runAux, if_neg hd, ih, bumpRun, maxRunSpec, posRun]
      have hp := posRun_le_maxRunSpec ds
      by_cases h0 : posRun ds = 0 <;> simp [h0, hd] <;> omega

theorem longestStreak_eq_maxRunSpec (l : List ContributionDay) :
    longestStreak l = maxRunSpec l := by
  have h1 := foldl_streakStep l 0 0
  have h2 := runAux_eq l 0
  have hp := posRun_le_maxRunSpec l
  simp only [longestStreak, h1, h2, bumpRun]
  by_cases h0 : posRun l = 0 <;> simp [h0] <;> omega

theorem maxRunSpec_of_all_zero (l : List ContributionDay)
    (h : ∀ d ∈ l, d.contributionCount = 0) : maxRunSpec l = 0 := by
  induction l with
  | nil => simp [maxRunSpec]
  | cons d ds ih =>
    have hd : d.contributionCount = 0 := h d (by simp)
    have hds : maxRunSpec ds = 0 := ih (fun x hx => h x (by simp [hx]))
    simp [maxRunSpec, posRun, hd, hds]

theorem posRun_of_all_pos (l : List ContributionDay)
    (h : ∀ d ∈ l, 0 < d.contributionCount) : posRun l = l.length := by
  induction l with
  | nil => simp [posRun]
  | cons d ds ih =>
    have hd : 0 < d.contributionCount := h d (by simp)
    have hds := ih (fun x hx => h x (by simp [hx]))
    simp [posRun, hd, hds]

/-! ## Lemmas about the stable descending sort -/

theorem mem_insDesc {q x : String × Nat} {s : List (String × Nat)} :
    q ∈ insDesc x s ↔ q = x ∨ q ∈ s := by
  induction s with
  | nil => simp [insDesc]
  | cons y ys ih =>
    simp only [insDesc]
    split
    · simp [or_comm, or_assoc, or_left_comm]
    · simp only [List.mem_cons, ih]
      tauto

theorem length_insDesc (x : String × Nat) (s : List (String × Nat)) :
    (insDesc x s).length = s.length + 1 := by
  induction s with
  | nil => simp [insDesc]
  | cons y ys ih =>
    simp only [insDesc]
    split <;> simp [ih]

theorem length_sortDescByVal (l : List (String × Nat)) :
    (sortDescByVal l).length = l.length := by
  induction l with
  | nil => rfl
  | cons x xs ih => simp [sortDescByVal, List.foldr_cons, length_insDesc] at ih ⊢; omega

theorem mem_sortDescByVal {q : String × Nat} {l : List (String × Nat)} :
    q ∈ sortDescByVal l ↔ q ∈ l := by
  induction l with
  | nil => simp [sortDescByVal]
  | cons x xs ih =>
    simp only [sortDescByVal, List.foldr_cons] at ih ⊢
    simp [mem_insDesc, ih]

theorem sorted_insDesc {x : String × Nat} {s : List (String × Nat)}
    (hs : s.Pairwise (fun a b => b.2 ≤ a.2)) :
    (insDesc x s).Pairwise (fun a b => b.2 ≤ a.2) := by
  induction s with
  | nil => simp [insDesc]
  | cons y ys ih =>
    rw [List.pairwise_cons] at hs
    by_cases hc : y.2 ≤ x.2
    · simp only [insDesc, if_pos hc]
      rw [List.pairwise_cons]
      refine ⟨?_, by rw [List.pairwise_cons]; exact hs⟩
      intro z hz
      rcases List.mem_cons.mp hz with h | h
      · subst h; omega
      · have := hs.1 z h; omega
    · simp only [insDesc, if_neg hc]
      rw [List.pairwise_cons]
      refine ⟨?_, ih hs.2⟩
      intro z hz
      rcases mem_insDesc.mp hz with h | h
      · subst h; omega
      · exact hs.1 z h

theorem sorted_sortDescByVal (l : List (String × Nat)) :
    (sortDescByVal l).Pairwise (fun a b => b.2 ≤ a.2) := by
  induction l with
  | nil => simp [sortDescByVal]
  | cons x xs ih =>
    simp only [sortDescByVal, List.foldr_cons] at ih ⊢
    exact sorted_insDesc ih

theorem maxVal_cons (x : String × Nat) (xs : List (String × Nat)) :
    maxVal (x :: xs) = max x.2 (maxVal xs) := rfl

theorem sortDescByVal_head_val :
    ∀ (l : List (String × Nat)) y ys, sortDescByVal l = y :: ys → y.2 = maxVal l := by
  intro l
  induction l with
  | nil => intro y ys h; simp [sortDescByVal] at h
  | cons x xs ih =>
    intro y ys h
    simp only [sortDescByVal, List.foldr_cons] at h
    rcases hs : sortDescByVal xs with _ | ⟨z, zs⟩
    · have hxs : xs = [] := by
        have hlen := length_sortDescByVal xs
        rw [hs] at hlen
        exact List.eq_nil_of_length_eq_zero hlen.symm
      subst hxs
      simp only [List.foldr_nil, insDesc] at h
      injection h with h1 h2
      subst h1
      simp only [maxVal, List.foldr_cons, List.foldr_nil]
      omega
    · have hz : z.2 = maxVal xs := ih z zs hs
      rw [show List.foldr insDesc [] xs = sortDescByVal xs from rfl, hs] at h
      by_cases hc : z.2 ≤ x.2
      · simp only [insDesc, if_pos hc] at h
        injection h with h1 h2
        subst h1
        rw [maxVal_cons]
        omega
      · simp only [insDesc, if_neg hc] at h
        injection h with h1 h2
        subst h1
        rw [maxVal_cons]
        omega

theorem head_sortDescByVal (l : List (String × Nat)) :
    (sortDescByVal l).head? = firstMax l := by
  induction l with
  | nil => rfl
  | cons x xs ih =>
    simp only [sortDescByVal, List.foldr_cons]
    rcases hs : sortDescByVal xs with _ | ⟨z, zs⟩
    · have hxs : xs = [] := by
        have hlen := length_sortDescByVal xs
        rw [hs] at hlen
        exact List.eq_nil_of_length_eq_zero hlen.symm
      subst hxs
      simp only [List.foldr_nil, insDesc, firstMax, List.head?_cons]
      rw [List.find?_cons_of_pos]
      simp only [beq_iff_eq, maxVal, List.foldr_cons, List.foldr_nil]
      omega
    · have hz : z.2 = maxVal xs := sortDescByVal_head_val xs z zs hs
      rw [show List.foldr insDesc [] xs = sortDescByVal xs from rfl, hs]
      by_cases hc : z.2 ≤ x.2
      · have hmax : maxVal (x :: xs) = x.2 := by rw [maxVal_cons]; omega
        simp only [insDesc, if_pos hc, firstMax, hmax, List.head?_cons]
        rw [List.find?_cons_of_pos]
        simp
      · have hmax : maxVal (x :: xs) = maxVal xs := by rw [maxVal_cons]; omega
        simp only [insDesc, if_neg hc, firstMax, hmax, List.head?_cons]
        rw [List.find?_cons_of_neg]
        · have hih := ih
          rw [hs] at hih
          simp only [List.head?_cons, firstMax] at hih
          exact hih
        · simp only [beq_iff_eq]
          omega

/-- Stability of the modelled JavaScript sort: for each value, the entries
holding that value appear in the sorted array in the same order as in the
input array. -/
theorem filter_insDesc (c : Nat) (x : String × Nat) (s : List (String × Nat)) :
    (insDesc x s).filter (fun p => p.2 == c) =
      if x.2 == c then x :: s.filter (fun p => p.2 == c)
      else s.filter (fun p => p.2 == c) := by
  induction s with
  | nil =>
    simp only [insDesc, List.filter_cons, List.filter_nil]
  | cons y ys ih =>
    by_cases hc : y.2 ≤ x.2
    · simp only [insDesc, if_pos hc, List.filter_cons]
    · simp only [insDesc, if_neg hc, List.filter_cons, ih]
      by_cases hx : x.2 = c
      · have hy : (y.2 == c) = false := by
          simp only [beq_eq_false_iff_ne, ne_eq]
          omega
        simp [hx, hy]
      · simp only [show (x.2 == c) = false by simp [hx]]
        cases hyc : y.2 == c <;> simp [hyc]

theorem filter_sortDescByVal (c : Nat) (l : List (String × Nat)) :
    (sortDescByVal l).filter (fun p => p.2 == c) = l.filter (fun p => p.2 == c) := by
  induction l with
  | nil => rfl
  | cons x xs ih =>
    simp only [sortDescByVal, List.foldr_cons] at ih ⊢
    rw [filter_insDesc, List.filter_cons]
    split <;> simp_all

/-! ## Lemmas about the key-ascending sort and `Object.entries` -/

theorem mem_insertAsc {q x : String × Nat} {s : List (String × Nat)} :
    q ∈ insertAsc x s ↔ q = x ∨ q ∈ s := by
  induction s with
  | nil => simp [insertAsc]
  | cons y ys ih =>
    simp only [insertAsc]
    split
    · simp [or_comm, or_assoc, or_left_comm]
    · simp only [List.mem_cons, ih]
      tauto

theorem length_insertAsc (x : String × Nat) (s : List (String × Nat)) :
    (insertAsc x s).length = s.length + 1 := by
  induction s with
  | nil => simp [insertAsc]
  | cons y ys ih =>
    simp only [insertAsc]
    split <;> simp [ih]

theorem mem_sortByKeyNum {q : String × Nat} {l : List (String × Nat)} :
    q ∈ sortByKeyNum l ↔ q ∈ l := by
  induction l with
  | nil => simp [sortByKeyNum]
  | cons x xs ih =>
    simp only [sortByKeyNum, List.foldr_cons] at ih ⊢
    simp [mem_insertAsc, ih]

theorem length_sortByKeyNum (l : List (String × Nat)) :
    (sortByKeyNum l).length = l.length := by
  induction l with
  | nil => rfl
  | cons x xs ih =>
    simp [sortByKeyNum, List.foldr_cons, length_insertAsc] at ih ⊢
    omega

theorem length_filter_partition (f : String × Nat → Bool) (l : List (String × Nat)) :
    (l.filter f).length + (l.filter (fun p => !f p)).length = l.length := by
  induction l with
  | nil => rfl
  | cons x xs ih =>
    rw [List.filter_cons, List.filter_cons]
    cases hf : f x <;> simp [hf] <;> omega

theorem length_jsEntries (o : JSRecord) : (jsEntries o).length = o.length := by
  rw [jsEntries, List.length_append, length_sortByKeyNum, length_filter_partition]

theorem mem_jsEntries {q : String × Nat} {o : JSRecord} : q ∈ jsEntries o ↔ q ∈ o := by
  rw [jsEntries, List.mem_append, mem_sortByKeyNum, List.mem_filter, List.mem_filter]
  by_cases h : isCanonicalIndex q.1 <;> simp [h]

/-! ## Lemmas about dictionary reads and writes -/

theorem jsGet_jsSet_self (o : JSRecord) (k : String) (v : Nat) :
    jsGet (jsSet o k v) k = some v := by
  induction o with
  | nil => simp [jsSet, jsGet, List.find?]
  | cons p ps ih =>
    by_cases hp : p.1 = k
    · simp [jsSet, hp, jsGet, List.find?]
    · have hb : (p.1 == k) = false := by simp [hp]
      simp only [jsSet, hb, Bool.false_eq_true, if_false]
      simp only [jsGet, List.find?] at ih ⊢
      rw [hb]
      exact ih

theorem jsGet_jsSet_ne (o : JSRecord) {k n : String} (v : Nat) (h : n ≠ k) :
    jsGet (jsSet o k v) n = jsGet o n := by
  induction o with
  | nil =>
    have hb : (k == n) = false := by simp [Ne.symm h]
    simp [jsSet, jsGet, List.find?, hb]
  | cons p ps ih =>
    by_cases hp : p.1 = k
    · have hkn : (k == n) = false := by simp [Ne.symm h]
      have hpn : (p.1 == n) = false := by simp [hp, Ne.symm h]
      simp [jsSet, hp, jsGet, List.find?, hkn, hpn]
    · have hb : (p.1 == k) = false := by simp [hp]
      simp only [jsSet, hb, Bool.false_eq_true, if_false]
      simp only [jsGet, List.find?] at ih ⊢
      cases hpn : p.1 == n
      · exact ih
      · rfl

theorem mem_jsSet {q : String × Nat} {o : JSRecord} {k : String} {v : Nat} :
    q ∈ jsSet o k v → q.1 = k ∨ q ∈ o := by
  induction o with
  | nil =>
    simp only [jsSet, List.mem_singleton, List.not_mem_nil, or_false]
    rintro rfl
    rfl
  | cons p ps ih =>
    by_cases hp : p.1 = k
    · simp only [jsSet, hp, beq_self_eq_true, if_true, List.mem_cons]
      rintro (rfl | h)
      · left; rfl
      · right; simp [h]
    · have hb : (p.1 == k) = false := by simp [hp]
      simp only [jsSet, hb, Bool.false_eq_true, if_false, List.mem_cons]
      rintro (rfl | h)
      · right; simp
      · rcases ih h with h1 | h1
        · left; exact h1
        · right; simp [h1]

/-- The keys of a dictionary, in insertion order. -/
def keysOf (o : JSRecord) : List String := o.map Prod.fst

theorem mem_keys_jsSet {m : String} {o : JSRecord} {k : String} {v : Nat} :
    m ∈ keysOf (jsSet o k v) → m = k ∨ m ∈ keysOf o := by
  intro h
  rcases List.mem_map.mp h with ⟨q, hq, rfl⟩
  rcases mem_jsSet hq with h1 | h1
  · left; exact h1
  · right; exact List.mem_map.mpr ⟨q, h1, rfl⟩

theorem nodup_keys_jsSet {o : JSRecord} {k : String} {v : Nat}
    (h : (keysOf o).Nodup) : (keysOf (jsSet o k v)).Nodup := by
  induction o with
  | nil => simp [jsSet, keysOf]
  | cons p ps ih =>
    simp only [keysOf, List.map_cons, List.nodup_cons] at h
    by_cases hp : p.1 = k
    · simp only [jsSet, hp, beq_self_eq_true, if_true, keysOf, List.map_cons, List.nodup_cons]
      refine ⟨?_, h.2⟩
      rw [← hp]
      exact h.1
    · have hb : (p.1 == k) = false := by simp [hp]
      simp only [jsSet, hb, Bool.false_eq_true, if_false, keysOf, List.map_cons, List.nodup_cons]
      refine ⟨?_, ih h.2⟩
      intro hmem
      rcases mem_keys_jsSet hmem with h1 | h1
      · exact hp h1
      · exact h.1 h1

theorem jsGet_of_mem {o : JSRecord} {n : String} {c : Nat}
    (hnd : (keysOf o).Nodup) (h : (n, c) ∈ o) : jsGet o n = some c := by
  induction o with
  | nil => simp at h
  | cons p ps ih =>
    simp only [keysOf, List.map_cons, List.nodup_cons] at hnd
    rcases List.mem_cons.mp h with h1 | h1
    · subst h1
      simp [jsGet, List.find?]
    · by_cases hp : p.1 = n
      · exfalso
        apply hnd.1
        rw [hp]
        exact List.mem_map.mpr ⟨(n, c), h1, rfl⟩
      · have hb : (p.1 == n) = false := by simp [hp]
        simp only [jsGet, List.find?, hb]
        exact ih hnd.2 h1

/-! ## Invariants of the languages accumulation -/

theorem nodup_keys_langStep {acc : JSRecord} (r : RepoNode)
    (h : (keysOf acc).Nodup) : (keysOf (langStep acc r)).Nodup := by
  rcases r with ⟨s, _ | n⟩
  · exact h
  · simp only [langStep]
    split
    · exact h
    · exact nodup_keys_jsSet h

theorem nodup_keys_languagesRecord (repos : List RepoNode) :
    (keysOf (languagesRecord repos)).Nodup := by
  have main : ∀ rs acc, (keysOf acc).Nodup → (keysOf (List.foldl langStep acc rs)).Nodup := by
    intro rs
    induction rs with
    | nil => intro acc h; exact h
    | cons r rest ih =>
      intro acc h
      exact ih _ (nodup_keys_langStep r h)
  exact main repos [] (by simp [keysOf])

theorem mem_langStep {q : String × Nat} {acc : JSRecord} {r : RepoNode}
    (h : q ∈ langStep acc r) :
    q ∈ acc ∨ (r.primaryLanguage = some q.1 ∧ q.1 ≠ "") := by
  rcases r with ⟨s, _ | n⟩
  · left; exact h
  · simp only [langStep] at h
    split at h
    · left; exact h
    · rcases mem_jsSet h with h1 | h1
      · right
        constructor
        · simp [h1]
        · rw [h1]
          assumption
      · left; exact h1

theorem mem_languagesRecord {q : String × Nat} {repos : List RepoNode}
    (h : q ∈ languagesRecord repos) :
    ∃ r ∈ repos, r.primaryLanguage = some q.1 ∧ q.1 ≠ "" := by
  have main : ∀ rs acc, q ∈ List.foldl langStep acc rs →
      q ∈ acc ∨ ∃ r ∈ rs, r.primaryLanguage = some q.1 ∧ q.1 ≠ "" := by
    intro rs
    induction rs with
    | nil => intro acc h; left; exact h
    | cons r rest ih =>
      intro acc h
      rcases ih _ h with h1 | ⟨r', hr', hl⟩
      · rcases mem_langStep h1 with h2 | h2
        · left; exact h2
        · right; exact ⟨r, by simp, h2⟩
      · right; exact ⟨r', by simp [hr'], hl⟩
  rcases main repos [] h with h1 | h1
  · simp at h1
  · exact h1

theorem recVal_langStep (acc : JSRecord) (r : RepoNode) (n : String) (hn : n ≠ "") :
    recVal (langStep acc r) n =
      recVal acc n + (if r.primaryLanguage == some n then 1 else 0) := by
  rcases r with ⟨s, _ | m⟩
  · simp [langStep]
  · simp only [langStep]
    by_cases hm : m = ""
    · subst hm
      have : (some ("" : String) == some n) = false := by simp [Ne.symm hn]
      simp [this]
    · have hb : ¬ (m = "") := hm
      simp only [if_neg hb]
      by_cases hmn : m = n
      · subst hmn
        simp only [Option.some.injEq, beq_self_eq_true, if_true, recVal, jsGet_jsSet_self]
        rfl
      · have h1 : (some m == some n) = false := by simp [hmn]
        simp only [h1, Bool.false_eq_true, if_false, recVal,
          jsGet_jsSet_ne acc _ (fun h => hmn h.symm)]
        omega

theorem recVal_languagesRecord (repos : List RepoNode) (n : String) (hn : n ≠ "") :
    recVal (languagesRecord repos) n = langCount repos n := by
  have main : ∀ rs acc, recVal (List.foldl langStep acc rs) n = recVal acc n + langCount rs n := by
    intro rs
    induction rs with
    | nil => intro acc; simp [langCount]
    | cons r rest ih =>
      intro acc
      rw [List.foldl_cons, ih, recVal_langStep acc r n hn]
      simp only [langCount, List.filter_cons]
      cases hr : r.primaryLanguage == some n <;> simp [hr] <;> omega
  have h0 : recVal [] n = 0 := by simp [recVal, jsGet, List.find?]
  rw [languagesRecord, main repos [], h0, Nat.zero_add]

/-! ## Nonemptiness of the aggregations -/

theorem jsSet_ne_nil (o : JSRecord) (k : String) (v : Nat) : jsSet o k v ≠ [] := by
  cases o with
  | nil => simp [jsSet]
  | cons p ps =>
    simp only [jsSet]
    split <;> simp

theorem foldl_monthStep_ne_nil (l : List ContributionDay) :
    ∀ acc : JSRecord, acc ≠ [] → List.foldl monthStep acc l ≠ [] := by
  induction l with
  | nil => intro acc h; exact h
  | cons d ds ih =>
    intro acc _
    exact ih _ (jsSet_ne_nil _ _ _)

theorem monthlyCommits_ne_nil {days : List ContributionDay} (h : days ≠ []) :
    monthlyCommits days ≠ [] := by
  rcases List.exists_cons_of_ne_nil h with ⟨d, ds, rfl⟩
  rw [monthlyCommits, List.foldl_cons]
  exact foldl_monthStep_ne_nil ds _ (jsSet_ne_nil _ _ _)

theorem foldl_dayStep_ne_nil (l : List ContributionDay) :
    ∀ acc : JSRecord, acc ≠ [] → List.foldl dayStep acc l ≠ [] := by
  induction l with
  | nil => intro acc h; exact h
  | cons d ds ih =>
    intro acc _
    exact ih _ (jsSet_ne_nil _ _ _)

theorem dailyCommits_ne_nil {days : List ContributionDay} (h : days ≠ []) :
    dailyCommits days ≠ [] := by
  rcases List.exists_cons_of_ne_nil h with ⟨d, ds, rfl⟩
  rw [dailyCommits, List.foldl_cons]
  exact foldl_dayStep_ne_nil ds _ (jsSet_ne_nil _ _ _)

theorem jsEntries_ne_nil {o : JSRecord} (h : o ≠ []) : jsEntries o ≠ [] := by
  intro hcon
  apply h
  have hlen := length_jsEntries o
  rw [hcon] at hlen
  exact List.eq_nil_of_length_eq_zero hlen.symm

theorem sortDescByVal_ne_nil {l : List (String × Nat)} (h : l ≠ []) :
    sortDescByVal l ≠ [] := by
  intro hcon
  apply h
  have hlen := length_sortDescByVal l
  rw [hcon] at hlen
  exact List.eq_nil_of_length_eq_zero hlen.symm

theorem mostActiveDayEntry_isSome {days : List ContributionDay} (h : days ≠ []) :
    ∃ e, mostActiveDayEntry days = some e := by
  have h1 := sortDescByVal_ne_nil (jsEntries_ne_nil (dailyCommits_ne_nil h))
  rcases List.exists_cons_of_ne_nil h1 with ⟨e, es, he⟩
  exact ⟨e, by rw [mostActiveDayEntry, he]; rfl⟩

theorem mostActiveMonthEntry_isSome {days : List ContributionDay} (h : days ≠ []) :
    ∃ e, mostActiveMonthEntry days = some e := by
  have h1 := sortDescByVal_ne_nil (jsEntries_ne_nil (monthlyCommits_ne_nil h))
  rcases List.exists_cons_of_ne_nil h1 with ⟨e, es, he⟩
  exact ⟨e, by rw [mostActiveMonthEntry, he]; rfl⟩

/-! ## Characterization of buildStats -/

theorem buildStats_ok {ud : UserData} {dayE monthE : String × Nat}
    (hd : mostActiveDayEntry (contributionDaysOf ud) = some dayE)
    (hm : mostActiveMonthEntry (contributionDaysOf ud) = some monthE) :
    buildStats ud = Except.ok
      { longestStreak := longestStreak (contributionDaysOf ud)
        totalCommits := ud.contributionsCollection.contributionCalendar.totalContributions
        commitRank := getCommitRank ud.contributionsCollection.contributionCalendar.totalContributions
        calendarData := contributionDaysOf ud
        mostActiveDay :=
          { name := weekdayNameOf dayE.1
            commits := jsRound ((dayE.2 : ℚ) / (((contributionDaysOf ud).length : ℚ) / 7)) }
        mostActiveMonth :=
          { name := monthNameOf monthE.1
            commits := (monthE.2 : Int) }
        starsEarned := totalStars ud.repositories.nodes
        topLanguages := topLanguages ud.repositories.nodes } := by
  rw [buildStats]
  simp only [hd, hm]

theorem buildStats_empty {ud : UserData} (h : contributionDaysOf ud = []) :
    buildStats ud = Except.error undefinedReadMsg := by
  rw [buildStats]
  have hd : mostActiveDayEntry (contributionDaysOf ud) = none := by
    rw [h]
    rfl
  simp only [hd]

/-! ## Concrete inputs for witnesses and counterexamples -/

/-- An all-zero two-day list. -/
def exZeroDays : List ContributionDay :=
  [⟨0, ⟨2024, 1, 1⟩, 1⟩, ⟨0, ⟨2024, 1, 2⟩, 2⟩]

/-- A three-day list with no zero-count day. -/
def exPosDays : List ContributionDay :=
  [⟨2, ⟨2024, 1, 1⟩, 1⟩, ⟨1, ⟨2024, 1, 2⟩, 2⟩, ⟨3, ⟨2024, 1, 3⟩, 3⟩]

/-- Two days, first on weekday 5 then on weekday 2, with equal counts: the
weekday aggregation inserts key "5" before key "2", but `Object.entries`
enumerates the array-index keys in ascending numeric order. -/
def exTieDays : List ContributionDay :=
  [⟨1, ⟨2024, 1, 5⟩, 5⟩, ⟨1, ⟨2024, 1, 9⟩, 2⟩]

/-- Repositories realizing the language multiset A, A, B, C, C, C. -/
def exLangRepos : List RepoNode :=
  [⟨0, some "A"⟩, ⟨0, some "A"⟩, ⟨0, some "B"⟩,
    ⟨0, some "C"⟩, ⟨0, some "C"⟩, ⟨0, some "C"⟩]

/-- Two repositories whose primary-language names are the digit strings "1"
and "0" (canonical array indices), tied at one repository each. -/
def exDigitLangRepos : List RepoNode :=
  [⟨0, some "1"⟩, ⟨0, some "0"⟩]

/-- A user record with a single contribution day inside the tracked year. -/
def exUser : UserData :=
  { contributionsCollection := ⟨⟨3, [⟨[⟨3, ⟨2024, 1, 1⟩, 1⟩]⟩]⟩⟩
    repositories := ⟨[⟨2, some "TypeScript"⟩, ⟨1, none⟩]⟩ }

/-- A user record whose only contribution day is before the year boundary, so
the filtered day list is empty. -/
def exStaleUser : UserData :=
  { contributionsCollection := ⟨⟨5, [⟨[⟨5, ⟨2023, 12, 31⟩, 0⟩]⟩]⟩⟩
    repositories := ⟨[]⟩ }

/-- A fetch that throws with message "boom". -/
def fetchBoom : Fetch := fun _ => Except.error "boom"

/-- A fetch that returns a null user. -/
def fetchNull : Fetch := fun _ => Except.ok none

/-- A fetch returning the single-day user record. -/
def fetchExUser : Fetch := fun _ => Except.ok (some exUser)

/-- A fetch returning the user record with only pre-2024 days. -/
def fetchStale : Fetch := fun _ => Except.ok (some exStaleUser)

/-! ## The aggregated values are the per-group sums -/

/-- Total contribution count of the days falling on the weekday with key `k`. -/
def weekdaySum (days : List ContributionDay) (k : String) : Nat :=
  ((days.filter (fun d => toString d.weekday == k)).map
    (fun d => d.contributionCount)).sum

/-- Total contribution count of the days falling in the month with key `k`. -/
def monthSum (days : List ContributionDay) (k : String) : Nat :=
  ((days.filter (fun d => monthKey d.date.month == k)).map
    (fun d => d.contributionCount)).sum

theorem recVal_dayStep (acc : JSRecord) (d : ContributionDay) (k : String) :
    recVal (dayStep acc d) k =
      recVal acc k + (if toString d.weekday == k then d.contributionCount else 0) := by
  by_cases hk : toString d.weekday = k
  · subst hk
    simp only [dayStep, recVal, jsGet_jsSet_self, beq_self_eq_true, if_true, Option.getD_some]
  · have hb : (toString d.weekday == k) = false := by simp [hk]
    simp only [dayStep, recVal, jsGet_jsSet_ne acc _ (fun h => hk h.symm), hb,
      Bool.false_eq_true, if_false, Nat.add_zero]

theorem recVal_dailyCommits (days : List ContributionDay) (k : String) :
    recVal (dailyCommits days) k = weekdaySum days k := by
  have main : ∀ l acc, recVal (List.foldl dayStep acc l) k = recVal acc k + weekdaySum l k := by
    intro l
    induction l with
    | nil => intro acc; simp [weekdaySum]
    | cons d ds ih =>
      intro acc
      rw [List.foldl_cons, ih, recVal_dayStep]
      simp only [weekdaySum, List.filter_cons]
      cases hd : toString d.weekday == k <;> simp [hd] <;> omega
  have h0 : recVal [] k = 0 := by simp [recVal, jsGet, List.find?]
  rw [dailyCommits, main days [], h0, Nat.zero_add]

theorem recVal_monthStep (acc : JSRecord) (d : ContributionDay) (k : String) :
    recVal (monthStep acc d) k =
      recVal acc k + (if monthKey d.date.month == k then d.contributionCount else 0) := by
  by_cases hk : monthKey d.date.month = k
  · subst hk
    simp only [monthStep, recVal, jsGet_jsSet_self, beq_self_eq_true, if_true, Option.getD_some]
  · have hb : (monthKey d.date.month == k) = false := by simp [hk]
    simp only [monthStep, recVal, jsGet_jsSet_ne acc _ (fun h => hk h.symm), hb,
      Bool.false_eq_true, if_false, Nat.add_zero]

theorem recVal_monthlyCommits (days : List ContributionDay) (k : String) :
    recVal (monthlyCommits days) k = monthSum days k := by
  have main : ∀ l acc, recVal (List.foldl monthStep acc l) k = recVal acc k + monthSum l k := by
    intro l
    induction l with
    | nil => intro acc; simp [monthSum]
    | cons d ds ih =>
      intro acc
      rw [List.foldl_cons, ih, recVal_monthStep]
      simp only [monthSum, List.filter_cons]
      cases hd : monthKey d.date.month == k <;> simp [hd] <;> omega
  have h0 : recVal [] k = 0 := by simp [recVal, jsGet, List.find?]
  rw [monthlyCommits, main days [], h0, Nat.zero_add]

theorem nodup_keys_dailyCommits (days : List ContributionDay) :
    (keysOf (dailyCommits days)).Nodup := by
  have main : ∀ l acc, (keysOf acc).Nodup → (keysOf (List.foldl dayStep acc l)).Nodup := by
    intro l
    induction l with
    | nil => intro acc h; exact h
    | cons d ds ih =>
      intro acc h
      exact ih _ (nodup_keys_jsSet h)
  exact main days [] (by simp [keysOf])

theorem nodup_keys_monthlyCommits (days : List ContributionDay) :
    (keysOf (monthlyCommits days)).Nodup := by
  have main : ∀ l acc, (keysOf acc).Nodup → (keysOf (List.foldl monthStep acc l)).Nodup := by
    intro l
    induction l with
    | nil => intro acc h; exact h
    | cons d ds ih =>
      intro acc h
      exact ih _ (nodup_keys_jsSet h)
  exact main days [] (by simp [keysOf])

theorem entry_val_dailyCommits {days : List ContributionDay} {e : String × Nat}
    (he : e ∈ jsEntries (dailyCommits days)) : e.2 = weekdaySum days e.1 := by
  rcases e with ⟨n, c⟩
  have h2 : (n, c) ∈ dailyCommits days := mem_jsEntries.mp he
  have hget := jsGet_of_mem (nodup_keys_dailyCommits days) h2
  have hval := recVal_dailyCommits days n
  rw [recVal, hget] at hval
  simpa using hval

theorem entry_val_monthlyCommits {days : List ContributionDay} {e : String × Nat}
    (he : e ∈ jsEntries (monthlyCommits days)) : e.2 = monthSum days e.1 := by
  rcases e with ⟨n, c⟩
  have h2 : (n, c) ∈ monthlyCommits days := mem_jsEntries.mp he
  have hget := jsGet_of_mem (nodup_keys_monthlyCommits days) h2
  have hval := recVal_monthlyCommits days n
  rw [recVal, hget] at hval
  simpa using hval

/-! ## The commit-rank chain equals the table -/

theorem getCommitRank_eq_table (n : Nat) : getCommitRank n = applyRankTable n := by
  unfold getCommitRank applyRankTable rankTable
  by_cases h1 : 5000 ≤ n
  · simp [List.find?, h1]
  · by_cases h2 : 2000 ≤ n
    · simp [List.find?, h1, h2]
    · by_cases h3 : 1000 ≤ n
      · simp [List.find?, h1, h2, h3]
      · by_cases h4 : 500 ≤ n
        · simp [List.find?, h1, h2, h3, h4]
        · by_cases h5 : 200 ≤ n
          · simp [List.find?, h1, h2, h3, h4, h5]
          · by_cases h6 : 50 ≤ n
            · simp [List.find?, h1, h2, h3, h4, h5, h6]
            · simp [List.find?, h1, h2, h3, h4, h5, h6]

/-! ## Claim theorems -/

/-- Claim C1: for every list of contribution days, the longestStreak computed
by the streak loop equals the maximum run length of consecutive days with a
positive contribution count in list (chronological) order; an all-zero list
yields 0 and a list with no zero-count day yields the length of the list. -/
theorem claim1_longestStreak (days : List ContributionDay) :
    longestStreak days = maxRunSpec days ∧
    ((∀ d ∈ days, d.contributionCount = 0) → longestStreak days = 0) ∧
    ((∀ d ∈ days, 0 < d.contributionCount) → longestStreak days = days.length) := by
  refine ⟨longestStreak_eq_maxRunSpec days, ?_, ?_⟩
  · intro h
    rw [longestStreak_eq_maxRunSpec]
    exact maxRunSpec_of_all_zero days h
  · intro h
    rw [longestStreak_eq_maxRunSpec]
    have h1 := posRun_of_all_pos days h
    have h2 := maxRunSpec_le_length days
    have h3 := posRun_le_maxRunSpec days
    omega

/-- Witness for C1 at concrete inputs: an all-zero two-day list and an
all-positive three-day list. -/
theorem claim1_longestStreak_witness :
    longestStreak exZeroDays = maxRunSpec exZeroDays ∧
    longestStreak exZeroDays = 0 ∧
    longestStreak exPosDays = exPosDays.length :=
  ⟨(claim1_longestStreak exZeroDays).1,
    (claim1_longestStreak exZeroDays).2.1 (by decide),
    (claim1_longestStreak exPosDays).2.2 (by decide)⟩

/-- Claim C2: getCommitRank is exactly the threshold table applied in
descending order with first match winning, and the boundary values 5000, 4999
and 0 map per the table. -/
theorem claim2_commitRank (n : Nat) :
    getCommitRank n = applyRankTable n ∧
    getCommitRank 5000 = "Top 0.5%-1%" ∧
    getCommitRank 4999 = "Top 1%-3%" ∧
    getCommitRank 0 = "Bottom 30%" :=
  ⟨getCommitRank_eq_table n, by decide, by decide, by decide⟩

/-- Counterexample to C3 as stated: on two equal-count days falling on
weekday 5 (inserted first) and weekday 2, the code selects weekday 2, not the
first-encountered key of the aggregation's insertion order (weekday 5), because
`Object.entries` enumerates the array-index keys "0".."6" in ascending numeric
order rather than insertion order. -/
theorem claim3_counterexample :
    mostActiveDayEntry exTieDays = some ("2", 1) ∧
    firstMax (dailyCommits exTieDays) = some ("5", 1) ∧
    mostActiveDayEntry exTieDays ≠ firstMax (dailyCommits exTieDays) :=
  ⟨by decide, by decide, by decide⟩

/-- Claim C3 (amended): both selections pick the first group achieving the
maximum summed contribution count in the `Object.entries` enumeration order of
the aggregation record (array-index keys ascending numerically, then the
remaining keys in insertion order), and each entry value is the summed
contribution count of its group. -/
theorem claim3_amended (days : List ContributionDay) :
    mostActiveDayEntry days = firstMax (jsEntries (dailyCommits days)) ∧
    mostActiveMonthEntry days = firstMax (jsEntries (monthlyCommits days)) ∧
    (∀ e ∈ jsEntries (dailyCommits days), e.2 = weekdaySum days e.1) ∧
    (∀ e ∈ jsEntries (monthlyCommits days), e.2 = monthSum days e.1) :=
  ⟨head_sortDescByVal _, head_sortDescByVal _,
    fun _ he => entry_val_dailyCommits he,
    fun _ he => entry_val_monthlyCommits he⟩

/-- Witness for the amended C3 at a concrete input. -/
theorem claim3_amended_witness :
    mostActiveDayEntry exTieDays = firstMax (jsEntries (dailyCommits exTieDays)) ∧
    (("2", 1) : String × Nat).2 = weekdaySum exTieDays "2" :=
  ⟨(claim3_amended exTieDays).1,
    (claim3_amended exTieDays).2.2.1 ("2", 1) (by decide)⟩

/-- Claim C4: for a non-empty filtered day list the handler succeeds, and the
mostActiveDay commit value is the winning weekday total divided by
(number of filtered days / 7) rounded to the nearest integer, whereas the
mostActiveMonth commit value is the winning month's raw total. -/
theorem claim4_normalization (ud : UserData) (h : contributionDaysOf ud ≠ []) :
    ∃ s dayE monthE,
      buildStats ud = Except.ok s ∧
      firstMax (jsEntries (dailyCommits (contributionDaysOf ud))) = some dayE ∧
      firstMax (jsEntries (monthlyCommits (contributionDaysOf ud))) = some monthE ∧
      s.mostActiveDay.commits =
        jsRound ((dayE.2 : ℚ) / (((contributionDaysOf ud).length : ℚ) / 7)) ∧
      s.mostActiveMonth.commits = (monthE.2 : Int) := by
  rcases mostActiveDayEntry_isSome h with ⟨dayE, hd⟩
  rcases mostActiveMonthEntry_isSome h with ⟨monthE, hm⟩
  refine ⟨_, dayE, monthE, buildStats_ok hd hm, ?_, ?_, rfl, rfl⟩
  · rw [← head_sortDescByVal]
    exact hd
  · rw [← head_sortDescByVal]
    exact hm

/-- Witness for C4 at a user record with one in-year contribution day. -/
theorem claim4_normalization_witness :
    ∃ s dayE monthE,
      buildStats exUser = Except.ok s ∧
      firstMax (jsEntries (dailyCommits (contributionDaysOf exUser))) = some dayE ∧
      firstMax (jsEntries (monthlyCommits (contributionDaysOf exUser))) = some monthE ∧
      s.mostActiveDay.commits =
        jsRound ((dayE.2 : ℚ) / (((contributionDaysOf exUser).length : ℚ) / 7)) ∧
      s.mostActiveMonth.commits = (monthE.2 : Int) :=
  claim4_normalization exUser (by decide)

/-- Counterexample to C5 as stated: two repositories whose primary-language
names are the digit strings "1" (first encountered) then "0", tied at one
repository each; the code returns ["0", "1"] because `Object.entries`
enumerates array-index keys numerically, not the first-encountered order
["1", "0"] the claim requires. -/
theorem claim5_counterexample :
    topLanguages exDigitLangRepos = ["0", "1"] ∧
    topLanguagesInsertionOrder exDigitLangRepos = ["1", "0"] ∧
    topLanguages exDigitLangRepos ≠ topLanguagesInsertionOrder exDigitLangRepos :=
  ⟨by decide, by decide, by decide⟩

/-- Claim C5 (amended): topLanguages has at most 3 entries, every listed name
is the primary language of some fetched repository, the names are ordered by
non-increasing repository count, ties follow the `Object.entries` enumeration
order of the accumulation record (first-encountered order whenever no language
name is a canonical array-index string, as the sort is stable on it), and the
language multiset A, A, B, C, C, C yields exactly ["C", "A", "B"]. -/
theorem claim5_amended (repos : List RepoNode) :
    (topLanguages repos).length ≤ 3 ∧
    (∀ n ∈ topLanguages repos, ∃ r ∈ repos, r.primaryLanguage = some n) ∧
    (topLanguages repos).Pairwise (fun a b => langCount repos b ≤ langCount repos a) ∧
    (∀ c, (sortDescByVal (jsEntries (languagesRecord repos))).filter (fun p => p.2 == c) =
      (jsEntries (languagesRecord repos)).filter (fun p => p.2 == c)) ∧
    topLanguages exLangRepos = ["C", "A", "B"] := by
  refine ⟨?_, ?_, ?_, ?_, by decide⟩
  · rw [topLanguages, List.length_map, List.length_take]
    exact inf_le_left
  · intro n hn
    rcases List.mem_map.mp hn with ⟨q, hq, rfl⟩
    have hq2 : q ∈ languagesRecord repos :=
      mem_jsEntries.mp (mem_sortDescByVal.mp (List.mem_of_mem_take hq))
    rcases mem_languagesRecord hq2 with ⟨r, hr, hl, _⟩
    exact ⟨r, hr, hl⟩
  · have hsorted := sorted_sortDescByVal (jsEntries (languagesRecord repos))
    have htake := List.Pairwise.sublist (List.take_sublist 3 _) hsorted
    have hval : ∀ q ∈ (sortDescByVal (jsEntries (languagesRecord repos))).take 3,
        q.2 = langCount repos q.1 := by
      intro q hq
      have hq2 : q ∈ languagesRecord repos :=
        mem_jsEntries.mp (mem_sortDescByVal.mp (List.mem_of_mem_take hq))
      rcases mem_languagesRecord hq2 with ⟨r, hr, hl, hne⟩
      rcases q with ⟨n, c⟩
      have hget := jsGet_of_mem (nodup_keys_languagesRecord repos) hq2
      have hrec := recVal_languagesRecord repos n hne
      rw [recVal, hget] at hrec
      simpa using hrec
    rw [topLanguages, List.pairwise_map]
    refine List.Pairwise.imp_of_mem ?_ htake
    intro a b ha hb hr
    rw [← hval a ha, ← hval b hb]
    exact hr
  · intro c
    exact filter_sortDescByVal c _

/-- Witness for the amended C5 at the example repositories. -/
theorem claim5_amended_witness :
    (topLanguages exLangRepos).length ≤ 3 ∧
    (∃ r ∈ exLangRepos, r.primaryLanguage = some "C") ∧
    topLanguages exLangRepos = ["C", "A", "B"] :=
  ⟨(claim5_amended exLangRepos).1,
    (claim5_amended exLangRepos).2.1 "C" (by decide),
    (claim5_amended exLangRepos).2.2.2.2⟩

/-- Claim C6: starsEarned is the sum of stargazerCount over all fetched
repositories, and 0 for the empty list. -/
theorem claim6_stars (repos : List RepoNode) :
    totalStars repos = (repos.map RepoNode.stargazerCount).sum ∧
    totalStars [] = 0 := by
  have main : ∀ l : List RepoNode, ∀ n : Nat,
      l.foldl (fun acc r => acc + r.stargazerCount) n =
        n + (l.map RepoNode.stargazerCount).sum := by
    intro l
    induction l with
    | nil => intro n; simp
    | cons r rest ih =>
      intro n
      rw [List.foldl_cons, ih]
      simp [List.sum_cons]
      omega
  constructor
  · rw [totalStars, main repos 0, Nat.zero_add]
  · rfl

/-- The flattened (unfiltered) day list of the fetched calendar:
`weeks.flatMap(week => week.contributionDays)`. -/
def flatDays (ud : UserData) : List ContributionDay :=
  (ud.contributionsCollection.contributionCalendar.weeks.map
    (fun w => w.contributionDays)).flatten

/-- The single in-year contribution day of exUser. -/
def exDay : ContributionDay := ⟨3, ⟨2024, 1, 1⟩, 1⟩

/-- Claim C7: the day list used by the aggregations and returned as
calendarData is exactly the flattened fetched day list restricted to days on
or after the year boundary; no day before the boundary appears. -/
theorem claim7_filter (ud : UserData) :
    (∀ d, d ∈ contributionDaysOf ud ↔
      (d ∈ flatDays ud ∧ YMD.leb yearBoundary d.date = true)) ∧
    (∀ d ∈ contributionDaysOf ud, YMD.leb yearBoundary d.date = true) ∧
    (okStats (buildStats ud)).map GitHubStats.calendarData =
      (okStats (buildStats ud)).map (fun _ => contributionDaysOf ud) := by
  have hmem : ∀ d, d ∈ contributionDaysOf ud ↔
      (d ∈ flatDays ud ∧ YMD.leb yearBoundary d.date = true) := by
    intro d
    rw [contributionDaysOf, List.mem_filter]
    exact Iff.rfl
  refine ⟨hmem, ?_, ?_⟩
  · intro d hd
    exact ((hmem d).mp hd).2
  · rcases hde : mostActiveDayEntry (contributionDaysOf ud) with _ | dayE
    · rw [buildStats]
      simp only [hde, okStats]
      rfl
    · rcases hme : mostActiveMonthEntry (contributionDaysOf ud) with _ | monthE
      · rw [buildStats]
        simp only [hde, hme, okStats]
        rfl
      · rw [buildStats_ok hde hme]
        simp only [okStats]
        rfl

/-- Witness for C7: the in-year day of exUser passes the filter and the
returned calendarData is the filtered list. -/
theorem claim7_filter_witness :
    exDay ∈ contributionDaysOf exUser ∧
    (okStats (buildStats exUser)).map GitHubStats.calendarData =
      (okStats (buildStats exUser)).map (fun _ => contributionDaysOf exUser) :=
  ⟨((claim7_filter exUser).1 exDay).mpr ⟨by decide, by decide⟩,
    (claim7_filter exUser).2.2⟩

/-- Claim C8: a missing or empty username parameter yields HTTP 400 with an
error body, and the fetch is never consulted (the response is the same for
every fetch function). -/
theorem claim8_missing_username :
    (∀ f : Fetch, GET none f = Response.err 400 "Username parameter is required") ∧
    (∀ f : Fetch, GET (some "") f = Response.err 400 "Username parameter is required") ∧
    (∀ f g : Fetch, GET none f = GET none g ∧ GET (some "") f = GET (some "") g) := by
  refine ⟨fun f => rfl, fun f => ?_, fun f g => ⟨rfl, ?_⟩⟩
  · rw [GET]
    simp
  · rw [GET, GET]
    simp

/-- Claim C9: an upstream throw or a null user record yields HTTP 500 with an
error body, and every response of the handler is either a complete stats
record or an error record, nothing in between. -/
theorem claim9_upstream (u : String) (f : Fetch) (m : String) (hu : u ≠ "") :
    (f u = Except.error m →
      GET (some u) f = Response.err 500 (if m = "" then fallbackMsg else m)) ∧
    (f u = Except.ok none → GET (some u) f = Response.err 500 nullUserMsg) ∧
    (∀ (un : Option String) (g : Fetch),
      (∃ s, GET un g = Response.ok s) ∨ ∃ c e, GET un g = Response.err c e) := by
  refine ⟨?_, ?_, ?_⟩
  · intro hf
    rw [GET]
    simp [hu, hf]
  · intro hf
    have hmsg : ¬ (nullUserMsg = "") := by decide
    rw [GET]
    simp [hu, hf, hmsg]
  · intro un g
    cases hr : GET un g with
    | ok s => exact Or.inl ⟨s, rfl⟩
    | err c e => exact Or.inr ⟨c, e, rfl⟩

/-- Witness for C9: a throwing fetch and a null-user fetch at a concrete
username. -/
theorem claim9_upstream_witness :
    GET (some "alice") fetchBoom = Response.err 500 "boom" ∧
    GET (some "alice") fetchNull = Response.err 500 nullUserMsg := by
  constructor
  · have h := (claim9_upstream "alice" fetchBoom "boom" (by decide)).1 rfl
    rw [if_neg (by decide)] at h
    exact h
  · exact (claim9_upstream "alice" fetchNull "boom" (by decide)).2.1 rfl

/-- Claim C10: when the fetched user is well-formed but the filtered day list
is empty, selecting the peak periods fails (reading a property of the
undefined destructured entry), the failure is caught at the boundary, and the
request ends as HTTP 500 rather than a stats record with default peaks. -/
theorem claim10_empty_days (u : String) (f : Fetch) (ud : UserData) (hu : u ≠ "")
    (hf : f u = Except.ok (some ud)) (hd : contributionDaysOf ud = []) :
    GET (some u) f = Response.err 500 undefinedReadMsg := by
  have hb := buildStats_empty hd
  have hmsg : ¬ (undefinedReadMsg = "") := by decide
  rw [GET]
  simp [hu, hf, hb, hmsg]

/-- Witness for C10: a user whose only fetched day is 2023-12-31, so the
year filter empties the list. -/
theorem claim10_empty_days_witness :
    GET (some "alice") fetchStale = Response.err 500 undefinedReadMsg :=
  claim10_empty_days "alice" fetchStale exStaleUser (by decide) rfl (by decide)
